import Mathlib

/-!
# Verification of the XML-flattening core of `theIRS` (`parser.go`)

This file shallowly embeds the row-generation engine of `parser.go`:
the recursive `flatten` walk over XML decoder tokens, the per-shard
`generateRows` loop, and the sink/flush handling of `ParseXMLs`.

Modelling decisions, all driven by the Go source:

* The Go value `map[string][]string` (`Xmler.Record`) is modelled as an
  association list with unique keys (`Record`). Go's map iteration order is
  unspecified and randomized; every place where the code ranges over the map
  (building the output row at end-of-document) is therefore parametrised by
  an iteration-order oracle `ord : Record → Record`, which is required to be
  a permutation of the record's entries wherever a theorem needs it.
* The `xml.Decoder` token stream of one document is a `List Tok` together
  with a flag `ok : Bool`: after the listed tokens the decoder either
  reports `io.EOF` (`ok = true`) or a syntax error (`ok = false`), which it
  then keeps reporting, exactly as `decoder.Token()` does.
* The shared `csv.Writer` over the output file is modelled by `Sink`.
  A write error in `csv.Writer` comes from the underlying buffered writer
  and is sticky, so `Sink` carries an optional attempt index `failFrom`
  from which every write attempt on fails and `Writer.Error()` (checked
  after `Flush`) reports an error once a failing write attempt happened.
* `flatten`'s loop is written with an explicit fuel argument; every
  recursive call consumes fuel, and callers pass `toks.length + 1`, which
  is always sufficient (each loop step consumes at least one token).
* Concurrency: `ParseXMLs` runs one goroutine per shard, all documents of a
  shard strictly sequentially, and the sink is the single shared resource.
  `parseXMLsModel` is the sequential linearization of that pool: shards are
  folded one after another over the shared sink, each with a fresh record,
  mirroring `Xmler{Record: make(map[string][]string), Writer: writer}`.
-/

/-- One `xml.Decoder` token, as consumed by `flatten`'s `switch`:
start element, character data, end element, or any other token kind
(comments, directives…), which the `switch` ignores. -/
inductive Tok where
  | startE (name : String)
  | charData (s : String)
  | endE (name : String)
  | other
deriving Repr, DecidableEq

/-- The Go map `map[string][]string` of `Xmler.Record`, as an association
list with unique keys (first insertion wins the position). -/
abbrev Record := List (String × List String)

/-- Map lookup: `x.Record[p]` with its `ok` flag. -/
def Record.find : Record → String → Option (List String)
  | [], _ => none
  | (k, vs) :: r, p => if k = p then some vs else Record.find r p

/-- Map lookup defaulting to the empty slice (indexing a Go map at a missing
key yields the zero value `nil`). -/
def Record.findD (r : Record) (p : String) : List String :=
  (r.find p).getD []

/-- `x.Record[p] = append(x.Record[p], v)` — appends `v` at the end of the
slice stored under `p`, creating the entry when `p` is absent. -/
def Record.appendVal : Record → String → String → Record
  | [], p, v => [(p, [v])]
  | (k, vs) :: r, p, v =>
      if k = p then (k, vs ++ [v]) :: r else (k, vs) :: Record.appendVal r p v

/-- `if _, ok := x.Record[k]; !ok { x.Record[k] = []string{} }` -/
def Record.ensureKey (r : Record) (k : String) : Record :=
  match r.find k with
  | some _ => r
  | none => r ++ [(k, [])]

/-- The shared CSV sink: rows written so far, the number of write attempts
made, and the attempt index from which the underlying writer fails
(`none` = a healthy sink). -/
structure Sink where
  rows : List (List String)
  attempts : Nat
  failFrom : Option Nat
deriving Repr, DecidableEq

/-- `Writer.Write(row)`: fails (returning `false`) from attempt `failFrom`
on; on success the row is appended to the output. -/
def Sink.writeRow (s : Sink) (row : List String) : Sink × Bool :=
  match s.failFrom with
  | some k =>
      if k ≤ s.attempts then ({ s with attempts := s.attempts + 1 }, false)
      else ({ s with rows := s.rows ++ [row], attempts := s.attempts + 1 }, true)
  | none => ({ s with rows := s.rows ++ [row], attempts := s.attempts + 1 }, true)

/-- `Writer.Flush(); Writer.Error() == nil`: the CSV writer's error is
sticky, so the flush check fails exactly when some failing write attempt has
already happened. -/
def Sink.flushOk (s : Sink) : Bool :=
  match s.failFrom with
  | some k => decide (s.attempts ≤ k)
  | none => true

/-- The mutable state threaded through one worker: its record map and the
shared sink. -/
structure FlatState where
  record : Record
  sink : Sink
deriving Repr, DecidableEq

/-- `strings.TrimSpace` of line 180: drop leading and trailing whitespace
characters (written over the character list so the kernel can evaluate it;
the documents contain only ASCII whitespace). -/
def trimSpace (s : String) : String :=
  ⟨((s.data.dropWhile Char.isWhitespace).reverse.dropWhile Char.isWhitespace).reverse⟩

/-- One output cell, from `flatten`'s end-of-document row build
(lines 133–146 of `parser.go`): more than one value → concatenation with no
separator (`strings.Builder`), exactly one → that value, none → `""`. -/
def cellOf (data : List String) : String :=
  if data.length > 1 then String.join data
  else if data.length = 1 then data.headD ""
  else ""

/-- The row built by ranging over the record: one cell per entry, in the
iteration order the oracle chose. -/
def buildRow (entries : Record) : List String :=
  entries.map fun e => cellOf e.2

/-- The fixed header written by `ParseXMLs` (line 35). -/
def header : List String :=
  ["FileName", "EIN", "OrganizationName", "TaxYear", "ReturnType"]

/-- `Xmler.flatten` (lines 125–194). Arguments mirror the Go locals:
`element` is the local name of the `xml.StartElement` parameter, reassigned
to each child started at this level; `lastTag` starts empty and tracks the
most recently started child; `pfx` is the `prefix` parameter. `toks`/`ok`
model the decoder; `fuel` bounds the loop. Returns the tokens not yet
consumed, the updated state, and `flatten`'s error return. -/
def flattenLoop (ord : Record → Record) :
    Nat → String → String → String → List Tok → Bool → FlatState →
    List Tok × FlatState × Option String
  | 0, _, _, _, toks, _, st => (toks, st, some "recursion limit")
  | fuel + 1, element, lastTag, pfx, toks, ok, st =>
    match toks with
    | [] =>
      if ok then
        -- io.EOF: build the row from the record and write it
        let row := buildRow (ord st.record)
        match st.sink.writeRow row with
        | (s1, true) =>
            if s1.flushOk then ([], { st with sink := s1 }, none)
            else ([], { st with sink := s1 }, some "failed to flush CSV writer")
        | (s1, false) => ([], { st with sink := s1 }, some "failed to write CSV row")
      else ([], st, some "XML parsing error")
    | Tok.startE n :: rest =>
        let fullTag := pfx ++ "." ++ n
        match flattenLoop ord fuel n "" fullTag rest ok st with
        | (rem, st1, some e) => (rem, st1, some e)
        | (rem, st1, none) => flattenLoop ord fuel n n pfx rem ok st1
    | Tok.charData s :: rest =>
        let val := trimSpace s
        let r1 := if val ≠ "" then st.record.appendVal pfx val else st.record
        let r2 := r1.ensureKey lastTag
        flattenLoop ord fuel element lastTag pfx rest ok { st with record := r2 }
    | Tok.endE n :: rest =>
        if n = element then (rest, st, none)
        else flattenLoop ord fuel element lastTag pfx rest ok st
    | Tok.other :: rest =>
        flattenLoop ord fuel element lastTag pfx rest ok st

/-- One source document: its decoder token stream and whether the stream
ends in `io.EOF` (`ok = true`) or a mid-stream syntax error. -/
structure Doc where
  toks : List Tok
  ok : Bool
deriving Repr, DecidableEq

/-- `generateRows`'s per-file call
`x.flatten(xml.StartElement{}, decoder, "")` (line 114). -/
def flattenDoc (ord : Record → Record) (d : Doc) (st : FlatState) :
    FlatState × Option String :=
  (flattenLoop ord (d.toks.length + 1) "" "" "" d.toks d.ok st).2

/-- `Xmler.generateRows` (lines 100–123): every document of the shard is
flattened against the worker's one record/state; a `flatten` error is logged
and the loop continues; the function returns `nil` on every path. -/
def generateRows (ord : Record → Record) :
    List Doc → FlatState → FlatState × Option String
  | [], st => (st, none)
  | d :: files, st =>
      -- on error: log and continue; on success: continue — either way the
      -- next file is processed with the state flatten left behind
      generateRows ord files (flattenDoc ord d st).1

/-- `ParseXMLs`'s tail (lines 92–95): final `writer.Flush()` followed by the
`writer.Error()` check. -/
def finalFlushCheck (s : Sink) : Option String :=
  if s.flushOk then none else some "failed to flush final CSV data"

/-- Sequential linearization of `ParseXMLs` (lines 32–98): write the header
row and flush it, then run each shard's `generateRows` with a fresh record
over the shared sink (worker errors are stored in `processingErrors` and
logged, never returned), then the final flush check. -/
def parseXMLsModel (ord : Record → Record) (shards : List (List Doc))
    (failFrom : Option Nat) : Sink × Option String :=
  let s0 : Sink := { rows := [], attempts := 0, failFrom := failFrom }
  match s0.writeRow header with
  | (s1, false) => (s1, some "failed to write CSV header")
  | (s1, true) =>
    if s1.flushOk then
      let s2 := shards.foldl
        (fun sk files => (generateRows ord files { record := [], sink := sk }).1.sink) s1
      (s2, finalFlushCheck s2)
    else (s1, some "failed to flush CSV header")

/-- The non-empty trimmed character-data values of a token stream, in
document order — the only values `flatten` ever appends to the record. -/
def charVals (toks : List Tok) : List String :=
  toks.filterMap fun t =>
    match t with
    | Tok.charData s => if trimSpace s = "" then none else some (trimSpace s)
    | _ => none

/-- Whether a token is character data. -/
def isCharData : Tok → Bool
  | Tok.charData _ => true
  | _ => false

/-- Iteration-order oracle: insertion order. -/
def ordId : Record → Record := fun r => r

/-- Iteration-order oracle: reverse insertion order (also a legal Go map
iteration order, since that order is unspecified). -/
def ordRev : Record → Record := fun r => r.reverse

/-- The sink of a healthy fresh run, after the header was written. -/
def sink0 : Sink := { rows := [], attempts := 0, failFrom := none }

/-- A fresh worker state over a healthy sink. -/
def st0 : FlatState := { record := [], sink := sink0 }

/-- Token stream of the spec's worked example
`<Return><EIN>12-3456789</EIN><Filer><Name>ACME</Name></Filer></Return>`. -/
def exToks : List Tok :=
  [Tok.startE "Return", Tok.startE "EIN", Tok.charData "12-3456789",
   Tok.endE "EIN", Tok.startE "Filer", Tok.startE "Name",
   Tok.charData "ACME", Tok.endE "Name", Tok.endE "Filer",
   Tok.endE "Return"]

/-- The worked-example document. -/
def exDoc : Doc := { toks := exToks, ok := true }

/-- `<a>x</a>` — a well-formed single-element document. -/
def docA : Doc :=
  { toks := [Tok.startE "a", Tok.charData "x", Tok.endE "a"], ok := true }

/-- `<b>y</b>` — a second well-formed document. -/
def docB : Doc :=
  { toks := [Tok.startE "b", Tok.charData "y", Tok.endE "b"], ok := true }

/-- `<a>x` with an unterminated tag: the decoder yields the start element
and the text, then reports a syntax error. -/
def docBad : Doc :=
  { toks := [Tok.startE "a", Tok.charData "x"], ok := false }

/-- `<Return><EIN></EIN></Return>` — a well-formed document with no
character data at all. -/
def docNoText : Doc :=
  { toks := [Tok.startE "Return", Tok.startE "EIN", Tok.endE "EIN",
             Tok.endE "Return"], ok := true }

/-! ## Lookup lemmas for the record map -/

theorem Record.find_append (r s : Record) (p : String) :
    (r ++ s).find p = match r.find p with
      | some vs => some vs
      | none => s.find p := by
  induction r with
  | nil => simp [Record.find]
  | cons a t ih =>
      obtain ⟨k, vs⟩ := a
      by_cases h : k = p <;> simp [Record.find, h, ih]

theorem Record.find_appendVal (r : Record) (k v p : String) :
    (r.appendVal k v).find p =
      if p = k then some (r.findD k ++ [v]) else r.find p := by
  induction r with
  | nil =>
      by_cases h : p = k <;>
        simp [Record.appendVal, Record.find, Record.findD, h, Ne.symm]
  | cons a t ih =>
      obtain ⟨a1, avs⟩ := a
      by_cases hak : a1 = k
      · subst hak
        by_cases hp : p = a1
        · subst hp; simp [Record.appendVal, Record.find, Record.findD]
        · simp [Record.appendVal, Record.find, hp, Ne.symm hp]
      · by_cases hp : a1 = p
        · subst hp
          have hpk : ¬ a1 = k := hak
          simp [Record.appendVal, Record.find, hak, hpk, Ne.symm]
        · simp [Record.appendVal, Record.find, hak, hp, ih, Record.findD]

theorem Record.findD_appendVal (r : Record) (k v p : String) :
    (r.appendVal k v).findD p =
      if p = k then r.findD p ++ [v] else r.findD p := by
  by_cases h : p = k <;>
    simp [Record.findD, Record.find_appendVal, h]

theorem Record.findD_ensureKey (r : Record) (k p : String) :
    (r.ensureKey k).findD p = r.findD p := by
  unfold Record.ensureKey
  cases h : r.find k with
  | some vs => rfl
  | none =>
      cases h2 : r.find p with
      | some vs => simp [Record.findD, Record.find_append, h2]
      | none =>
          by_cases hkp : k = p <;>
            simp [Record.findD, Record.find_append, h2, Record.find, hkp]

theorem Record.isSome_find_appendVal (r : Record) (k v p : String)
    (h : (r.find p).isSome) : ((r.appendVal k v).find p).isSome := by
  rw [Record.find_appendVal]
  by_cases hp : p = k <;> simp [hp, h]

theorem Record.isSome_find_ensureKey (r : Record) (k p : String)
    (h : (r.find p).isSome) : ((r.ensureKey k).find p).isSome := by
  unfold Record.ensureKey
  cases hk : r.find k with
  | some vs => exact h
  | none =>
      rw [Record.find_append]
      cases h2 : r.find p with
      | some vs => simp
      | none => simp [h2] at h

theorem Record.isSome_find_ensureKey_self (r : Record) (k : String) :
    ((r.ensureKey k).find k).isSome := by
  unfold Record.ensureKey
  cases hk : r.find k with
  | some vs => simp [hk]
  | none =>
      rw [Record.find_append]
      simp [hk, Record.find]

/-! ## Basic shape lemmas for `flattenLoop` -/

/-- A run on an exhausted token stream consumes nothing further and leaves
the record untouched (the end-of-document branch only writes to the sink). -/
theorem flattenLoop_nil (ord : Record → Record) (fuel : Nat)
    (el lt pfx : String) (ok : Bool) (st : FlatState) :
    (flattenLoop ord fuel el lt pfx [] ok st).1 = [] ∧
    (flattenLoop ord fuel el lt pfx [] ok st).2.1.record = st.record := by
  cases fuel with
  | zero => simp [flattenLoop]
  | succ n =>
      cases ok with
      | false => simp [flattenLoop]
      | true =>
          rcases hw : st.sink.writeRow (buildRow (ord st.record)) with ⟨s1, okW⟩
          cases okW <;> simp [flattenLoop, hw] <;> split <;> simp

/-- With a mid-stream decoder error (`ok = false`) the end-of-document
branch is unreachable, so the sink is never touched: no row is emitted. -/
theorem flattenLoop_sink_of_err (ord : Record → Record) (fuel : Nat) :
    ∀ (el lt pfx : String) (toks : List Tok) (st : FlatState),
    (flattenLoop ord fuel el lt pfx toks false st).2.1.sink = st.sink := by
  induction fuel with
  | zero => intro el lt pfx toks st; simp [flattenLoop]
  | succ n ih =>
      intro el lt pfx toks st
      cases toks with
      | nil => simp [flattenLoop]
      | cons t rest =>
          cases t with
          | startE m =>
              rcases hc : flattenLoop ord n m "" (pfx ++ "." ++ m) rest false st
                with ⟨rem1, st1, e1⟩
              have h1 : st1.sink = st.sink := by
                have := ih m "" (pfx ++ "." ++ m) rest st
                rw [hc] at this; exact this
              cases e1 with
              | some e => simp [flattenLoop, hc, h1]
              | none =>
                  have h2 := ih m m pfx rem1 st1
                  simp [flattenLoop, hc, h2, h1]
          | charData s => simp only [flattenLoop]; exact ih _ _ _ _ _
          | endE m =>
              by_cases hm : m = el <;> simp [flattenLoop, hm] <;> exact ih _ _ _ _ _
          | other => simp only [flattenLoop]; exact ih _ _ _ _ _

/-! ## `charVals` simp lemmas -/

theorem charVals_nil : charVals [] = [] := rfl

theorem charVals_cons_startE (m : String) (l : List Tok) :
    charVals (Tok.startE m :: l) = charVals l := by
  simp [charVals, List.filterMap_cons]

theorem charVals_cons_endE (m : String) (l : List Tok) :
    charVals (Tok.endE m :: l) = charVals l := by
  simp [charVals, List.filterMap_cons]

theorem charVals_cons_other (l : List Tok) :
    charVals (Tok.other :: l) = charVals l := by
  simp [charVals, List.filterMap_cons]

theorem charVals_cons_charData (s : String) (l : List Tok) :
    charVals (Tok.charData s :: l) =
      if trimSpace s = "" then charVals l else trimSpace s :: charVals l := by
  by_cases h : trimSpace s = "" <;> simp [charVals, List.filterMap_cons, h]

theorem charVals_append (l1 l2 : List Tok) :
    charVals (l1 ++ l2) = charVals l1 ++ charVals l2 := by
  simp [charVals, List.filterMap_append]

/-! ## The evolution of the record through `flattenLoop`

The only record mutations `flatten` performs are `append`ing one trimmed
non-empty text value under the current prefix and registering the `lastTag`
key with an empty slice. Hence, for every key, the value slice only ever
grows at its end, and everything appended is a non-empty trimmed
character-data value of the consumed tokens, in document order. -/

theorem flattenLoop_evolve (ord : Record → Record) :
    ∀ (fuel : Nat) (el lt pfx : String) (toks : List Tok) (ok : Bool)
      (st : FlatState) (rem : List Tok) (stR : FlatState) (e : Option String),
    flattenLoop ord fuel el lt pfx toks ok st = (rem, stR, e) →
    ∃ pre, toks = pre ++ rem ∧
      ∀ p, ∃ tail, stR.record.findD p = st.record.findD p ++ tail ∧
        tail.Sublist (charVals pre) := by
  intro fuel
  induction fuel with
  | zero =>
      intro el lt pfx toks ok st rem stR e heq
      simp only [flattenLoop, Prod.mk.injEq] at heq
      obtain ⟨rfl, rfl, rfl⟩ := heq
      exact ⟨[], rfl, fun p => ⟨[], by simp, by simp⟩⟩
  | succ n ih =>
      intro el lt pfx toks ok st rem stR e heq
      cases toks with
      | nil =>
          have h := flattenLoop_nil ord (n + 1) el lt pfx ok st
          rw [heq] at h
          have h1 : rem = [] := h.1
          have h2 : stR.record = st.record := h.2
          refine ⟨[], by simp [h1], fun p => ⟨[], by simp [h2], by simp⟩⟩
      | cons t rest =>
          cases t with
          | startE m =>
              rcases hc : flattenLoop ord n m "" (pfx ++ "." ++ m) rest ok st
                with ⟨rem1, st1, e1⟩
              obtain ⟨pre1, hpre1, htail1⟩ := ih m "" (pfx ++ "." ++ m) rest ok st rem1 st1 e1 hc
              simp only [flattenLoop, hc] at heq
              cases e1 with
              | some msg =>
                  simp only [Prod.mk.injEq] at heq
                  obtain ⟨rfl, rfl, rfl⟩ := heq
                  refine ⟨Tok.startE m :: pre1, by simp [hpre1], fun p => ?_⟩
                  obtain ⟨tail1, ht1, hs1⟩ := htail1 p
                  exact ⟨tail1, ht1, by simpa [charVals_cons_startE] using hs1⟩
              | none =>
                  obtain ⟨pre2, hpre2, htail2⟩ := ih m m pfx rem1 ok st1 rem stR e heq
                  refine ⟨Tok.startE m :: (pre1 ++ pre2), ?_, fun p => ?_⟩
                  · simp [hpre1, hpre2, List.append_assoc]
                  · obtain ⟨tail1, ht1, hs1⟩ := htail1 p
                    obtain ⟨tail2, ht2, hs2⟩ := htail2 p
                    refine ⟨tail1 ++ tail2, by simp [ht2, ht1, List.append_assoc], ?_⟩
                    simpa [charVals_cons_startE, charVals_append] using hs1.append hs2
          | charData s =>
              simp only [flattenLoop] at heq
              by_cases hv : trimSpace s = ""
              · have heq' : flattenLoop ord n el lt pfx rest ok
                    { st with record := st.record.ensureKey lt } = (rem, stR, e) := by
                  simpa [hv] using heq
                obtain ⟨pre1, hpre1, htail1⟩ := ih el lt pfx rest ok _ rem stR e heq'
                refine ⟨Tok.charData s :: pre1, by simp [hpre1], fun p => ?_⟩
                obtain ⟨tail1, ht1, hs1⟩ := htail1 p
                refine ⟨tail1, ?_, ?_⟩
                · simpa [Record.findD_ensureKey] using ht1
                · simpa [charVals_cons_charData, hv] using hs1
              · have heq' : flattenLoop ord n el lt pfx rest ok
                    { st with record := (st.record.appendVal pfx (trimSpace s)).ensureKey lt }
                      = (rem, stR, e) := by
                  simpa [hv] using heq
                obtain ⟨pre1, hpre1, htail1⟩ := ih el lt pfx rest ok _ rem stR e heq'
                refine ⟨Tok.charData s :: pre1, by simp [hpre1], fun p => ?_⟩
                obtain ⟨tail1, ht1, hs1⟩ := htail1 p
                rw [Record.findD_ensureKey, Record.findD_appendVal] at ht1
                by_cases hp : p = pfx
                · refine ⟨trimSpace s :: tail1, ?_, ?_⟩
                  · rw [if_pos hp] at ht1
                    simp [ht1, List.append_assoc]
                  · rw [charVals_cons_charData, if_neg hv]
                    exact hs1.cons₂ _
                · refine ⟨tail1, ?_, ?_⟩
                  · simpa [if_neg hp] using ht1
                  · rw [charVals_cons_charData, if_neg hv]
                    exact hs1.cons _
          | endE m =>
              simp only [flattenLoop] at heq
              by_cases hm : m = el
              · rw [if_pos hm] at heq
                simp only [Prod.mk.injEq] at heq
                obtain ⟨rfl, rfl, rfl⟩ := heq
                exact ⟨[Tok.endE m], rfl, fun p => ⟨[], by simp, by simp⟩⟩
              · rw [if_neg hm] at heq
                obtain ⟨pre1, hpre1, htail1⟩ := ih el lt pfx rest ok st rem stR e heq
                refine ⟨Tok.endE m :: pre1, by simp [hpre1], fun p => ?_⟩
                obtain ⟨tail1, ht1, hs1⟩ := htail1 p
                exact ⟨tail1, ht1, by simpa [charVals_cons_endE] using hs1⟩
          | other =>
              simp only [flattenLoop] at heq
              obtain ⟨pre1, hpre1, htail1⟩ := ih el lt pfx rest ok st rem stR e heq
              refine ⟨Tok.other :: pre1, by simp [hpre1], fun p => ?_⟩
              obtain ⟨tail1, ht1, hs1⟩ := htail1 p
              exact ⟨tail1, ht1, by simpa [charVals_cons_other] using hs1⟩

/-- Keys are never removed from the record: whatever is present before a
`flatten` run is still present after it. -/
theorem flattenLoop_keys_mono (ord : Record → Record) :
    ∀ (fuel : Nat) (el lt pfx : String) (toks : List Tok) (ok : Bool)
      (st : FlatState) (p : String),
    (st.record.find p).isSome →
    ((flattenLoop ord fuel el lt pfx toks ok st).2.1.record.find p).isSome := by
  intro fuel
  induction fuel with
  | zero => intro el lt pfx toks ok st p h; simpa [flattenLoop] using h
  | succ n ih =>
      intro el lt pfx toks ok st p h
      cases toks with
      | nil =>
          have hn := (flattenLoop_nil ord (n + 1) el lt pfx ok st).2
          rw [hn]; exact h
      | cons t rest =>
          cases t with
          | startE m =>
              rcases hc : flattenLoop ord n m "" (pfx ++ "." ++ m) rest ok st
                with ⟨rem1, st1, e1⟩
              have h1 : (st1.record.find p).isSome := by
                have := ih m "" (pfx ++ "." ++ m) rest ok st p h
                rw [hc] at this; exact this
              cases e1 with
              | some msg => simp only [flattenLoop, hc]; exact h1
              | none =>
                  simp only [flattenLoop, hc]
                  exact ih m m pfx rem1 ok st1 p h1
          | charData s =>
              simp only [flattenLoop]
              by_cases hv : trimSpace s = ""
              · simp only [hv, ne_eq, not_true_eq_false, ite_false]
                exact ih el lt pfx rest ok _ p (Record.isSome_find_ensureKey _ _ _ h)
              · simp only [ne_eq, hv, not_false_eq_true, ite_true]
                exact ih el lt pfx rest ok _ p
                  (Record.isSome_find_ensureKey _ _ _
                    (Record.isSome_find_appendVal _ _ _ _ h))
          | endE m =>
              simp only [flattenLoop]
              by_cases hm : m = el
              · rw [if_pos hm]; exact h
              · rw [if_neg hm]; exact ih el lt pfx rest ok st p h
          | other =>
              simp only [flattenLoop]
              exact ih el lt pfx rest ok st p h

/-- A failed `Writer.Write` leaves the committed rows untouched. -/
theorem Sink.writeRow_rows_false {s : Sink} {row : List String} {s1 : Sink}
    (h : s.writeRow row = (s1, false)) : s1.rows = s.rows := by
  simp only [Sink.writeRow] at h
  rcases hf : s.failFrom with _ | k <;> simp only [hf] at h
  · rw [Prod.mk.injEq] at h
    exact absurd h.2 (by simp)
  · by_cases hk : k ≤ s.attempts
    · rw [if_pos hk, Prod.mk.injEq] at h
      rw [← h.1]
    · rw [if_neg hk, Prod.mk.injEq] at h
      exact absurd h.2 (by simp)

/-- A successful `Writer.Write` appends exactly the written row. -/
theorem Sink.writeRow_rows_true {s : Sink} {row : List String} {s1 : Sink}
    (h : s.writeRow row = (s1, true)) : s1.rows = s.rows ++ [row] := by
  simp only [Sink.writeRow] at h
  rcases hf : s.failFrom with _ | k <;> simp only [hf] at h
  · rw [Prod.mk.injEq] at h
    rw [← h.1]
  · by_cases hk : k ≤ s.attempts
    · rw [if_pos hk, Prod.mk.injEq] at h
      exact absurd h.2 (by simp)
    · rw [if_neg hk, Prod.mk.injEq] at h
      rw [← h.1]

/-- Every row appended to the sink by a `flatten` run is the row built from
the run's final record (the end-of-document branch is only reached once the
token stream is exhausted, after which the record no longer changes), and
once a row has been written the stream is exhausted. -/
theorem flattenLoop_rows (ord : Record → Record) :
    ∀ (fuel : Nat) (el lt pfx : String) (toks : List Tok) (ok : Bool)
      (st : FlatState) (rem : List Tok) (stR : FlatState) (e : Option String),
    flattenLoop ord fuel el lt pfx toks ok st = (rem, stR, e) →
    ∃ k, stR.sink.rows = st.sink.rows ++ List.replicate k (buildRow (ord stR.record)) ∧
      (0 < k → rem = []) := by
  intro fuel
  induction fuel with
  | zero =>
      intro el lt pfx toks ok st rem stR e heq
      simp only [flattenLoop, Prod.mk.injEq] at heq
      obtain ⟨rfl, rfl, rfl⟩ := heq
      exact ⟨0, by simp, by simp⟩
  | succ n ih =>
      intro el lt pfx toks ok st rem stR e heq
      cases toks with
      | nil =>
          cases ok with
          | false =>
              simp only [flattenLoop, Prod.mk.injEq] at heq
              obtain ⟨rfl, rfl, rfl⟩ := heq
              exact ⟨0, by simp, by simp⟩
          | true =>
              rcases hw : st.sink.writeRow (buildRow (ord st.record)) with ⟨s1, okW⟩
              cases okW with
              | false =>
                  simp only [flattenLoop, hw, eq_self_iff_true, if_true,
                    Prod.mk.injEq] at heq
                  obtain ⟨rfl, rfl, rfl⟩ := heq
                  have hr : s1.rows = st.sink.rows := Sink.writeRow_rows_false hw
                  exact ⟨0, by simp [hr], by simp⟩
              | true =>
                  have hr : s1.rows = st.sink.rows ++ [buildRow (ord st.record)] :=
                    Sink.writeRow_rows_true hw
                  simp only [flattenLoop, hw, eq_self_iff_true, if_true] at heq
                  by_cases hfl : s1.flushOk = true
                  · rw [if_pos hfl] at heq
                    simp only [Prod.mk.injEq] at heq
                    obtain ⟨rfl, rfl, rfl⟩ := heq
                    exact ⟨1, by simp [hr], fun _ => rfl⟩
                  · rw [if_neg hfl] at heq
                    simp only [Prod.mk.injEq] at heq
                    obtain ⟨rfl, rfl, rfl⟩ := heq
                    exact ⟨1, by simp [hr], fun _ => rfl⟩
      | cons t rest =>
          cases t with
          | startE m =>
              rcases hc : flattenLoop ord n m "" (pfx ++ "." ++ m) rest ok st
                with ⟨rem1, st1, e1⟩
              obtain ⟨k1, hrows1, hrem1⟩ := ih m "" (pfx ++ "." ++ m) rest ok st rem1 st1 e1 hc
              simp only [flattenLoop, hc] at heq
              cases e1 with
              | some msg =>
                  simp only [Prod.mk.injEq] at heq
                  obtain ⟨rfl, rfl, rfl⟩ := heq
                  exact ⟨k1, hrows1, hrem1⟩
              | none =>
                  obtain ⟨k2, hrows2, hrem2⟩ := ih m m pfx rem1 ok st1 rem stR e heq
                  rcases Nat.eq_zero_or_pos k1 with hk1 | hk1
                  · subst hk1
                    refine ⟨k2, ?_, hrem2⟩
                    simpa [hrows1] using hrows2
                  · have hrem1' : rem1 = [] := hrem1 hk1
                    subst hrem1'
                    have heq2 : flattenLoop ord n m m pfx [] ok st1 = (rem, stR, e) := heq
                    have hnil := flattenLoop_nil ord n m m pfx ok st1
                    rw [heq2] at hnil
                    have hrec : stR.record = st1.record := hnil.2
                    have hremnil : rem = [] := hnil.1
                    refine ⟨k1 + k2, ?_, fun _ => hremnil⟩
                    rw [hrows2, hrows1, hrec, List.replicate_add]
                    simp [List.append_assoc]
          | charData s =>
              simp only [flattenLoop] at heq
              by_cases hv : trimSpace s = ""
              · have heq' : flattenLoop ord n el lt pfx rest ok
                    { st with record := st.record.ensureKey lt } = (rem, stR, e) := by
                  simpa [hv] using heq
                obtain ⟨k1, hrows1, hrem1⟩ := ih el lt pfx rest ok _ rem stR e heq'
                exact ⟨k1, hrows1, hrem1⟩
              · have heq' : flattenLoop ord n el lt pfx rest ok
                    { st with record := (st.record.appendVal pfx (trimSpace s)).ensureKey lt }
                      = (rem, stR, e) := by
                  simpa [hv] using heq
                obtain ⟨k1, hrows1, hrem1⟩ := ih el lt pfx rest ok _ rem stR e heq'
                exact ⟨k1, hrows1, hrem1⟩
          | endE m =>
              simp only [flattenLoop] at heq
              by_cases hm : m = el
              · rw [if_pos hm] at heq
                simp only [Prod.mk.injEq] at heq
                obtain ⟨rfl, rfl, rfl⟩ := heq
                exact ⟨0, by simp, by simp⟩
              · rw [if_neg hm] at heq
                exact ih el lt pfx rest ok st rem stR e heq
          | other =>
              simp only [flattenLoop] at heq
              exact ih el lt pfx rest ok st rem stR e heq

/-! ## Independence of everything but row contents from the map iteration
order -/

/-- Two sinks that agree on everything except possibly the contents of
already-committed rows (they hold equally many rows). -/
def SinkSim (s t : Sink) : Prop :=
  s.attempts = t.attempts ∧ s.failFrom = t.failFrom ∧ s.rows.length = t.rows.length

theorem SinkSim.refl (s : Sink) : SinkSim s s := ⟨rfl, rfl, rfl⟩

/-- Writing one row each to similar sinks yields the same success flag and
similar sinks, whatever the two rows are. -/
theorem Sink.writeRow_sim {s t : Sink} (h : SinkSim s t) (r1 r2 : List String) :
    (s.writeRow r1).2 = (t.writeRow r2).2 ∧
    SinkSim (s.writeRow r1).1 (t.writeRow r2).1 := by
  obtain ⟨ha, hf, hr⟩ := h
  rcases hft : t.failFrom with _ | k
  · simp only [Sink.writeRow, hf, hft]
    refine ⟨?_, ?_⟩ <;> simp [SinkSim, ha, hf, hft, hr]
  · simp only [Sink.writeRow, hf, hft, ha]
    by_cases hk : k ≤ t.attempts
    · rw [if_pos hk, if_pos hk]
      refine ⟨?_, ?_⟩ <;> simp [SinkSim, ha, hf, hft, hr]
    · rw [if_neg hk, if_neg hk]
      refine ⟨?_, ?_⟩ <;> simp [SinkSim, ha, hf, hft, hr]

/-- Similar sinks agree on the flush check. -/
theorem Sink.flushOk_sim {s t : Sink} (h : SinkSim s t) : s.flushOk = t.flushOk := by
  obtain ⟨ha, hf, -⟩ := h
  simp only [Sink.flushOk, ha, hf]

/-- The iteration-order oracle influences only the contents of the rows
written to the sink: two runs with different oracles from states with equal
records and similar sinks consume the same tokens, build the same record,
return the same error, and leave similar sinks. -/
theorem flattenLoop_oracle_sim (ord1 ord2 : Record → Record) :
    ∀ (fuel : Nat) (el lt pfx : String) (toks : List Tok) (ok : Bool)
      (st1 st2 : FlatState),
    st1.record = st2.record → SinkSim st1.sink st2.sink →
    (flattenLoop ord1 fuel el lt pfx toks ok st1).1
        = (flattenLoop ord2 fuel el lt pfx toks ok st2).1 ∧
    (flattenLoop ord1 fuel el lt pfx toks ok st1).2.1.record
        = (flattenLoop ord2 fuel el lt pfx toks ok st2).2.1.record ∧
    (flattenLoop ord1 fuel el lt pfx toks ok st1).2.2
        = (flattenLoop ord2 fuel el lt pfx toks ok st2).2.2 ∧
    SinkSim (flattenLoop ord1 fuel el lt pfx toks ok st1).2.1.sink
        (flattenLoop ord2 fuel el lt pfx toks ok st2).2.1.sink := by
  intro fuel
  induction fuel with
  | zero =>
      intro el lt pfx toks ok st1 st2 hrec hsim
      exact ⟨rfl, hrec, rfl, hsim⟩
  | succ n ih =>
      intro el lt pfx toks ok st1 st2 hrec hsim
      cases toks with
      | nil =>
          cases ok with
          | false => exact ⟨rfl, hrec, rfl, hsim⟩
          | true =>
              have hw := Sink.writeRow_sim hsim
                (buildRow (ord1 st1.record)) (buildRow (ord2 st2.record))
              rcases hw1 : st1.sink.writeRow (buildRow (ord1 st1.record)) with ⟨sa, fa⟩
              rcases hw2 : st2.sink.writeRow (buildRow (ord2 st2.record)) with ⟨sb, fb⟩
              rw [hw1, hw2] at hw
              obtain ⟨hflag, hsim2⟩ := hw
              simp only at hflag hsim2
              rw [hrec] at hw1
              subst hflag
              cases fa with
              | false =>
                  refine ⟨?_, ?_, ?_, ?_⟩ <;>
                    simp only [flattenLoop, hrec, hw1, hw2, eq_self_iff_true,
                      if_true] <;>
                    first
                      | rfl
                      | exact hsim2
              | true =>
                  have hfl : sa.flushOk = sb.flushOk := Sink.flushOk_sim hsim2
                  by_cases h : sb.flushOk = true
                  · refine ⟨?_, ?_, ?_, ?_⟩ <;>
                      simp only [flattenLoop, hrec, hw1, hw2, eq_self_iff_true,
                        if_true, hfl, if_pos h] <;>
                      first
                        | rfl
                        | exact hsim2
                  · refine ⟨?_, ?_, ?_, ?_⟩ <;>
                      simp only [flattenLoop, hrec, hw1, hw2, eq_self_iff_true,
                        if_true, hfl, if_neg h] <;>
                      first
                        | rfl
                        | exact hsim2
      | cons t rest =>
          cases t with
          | startE m =>
              rcases hc1 : flattenLoop ord1 n m "" (pfx ++ "." ++ m) rest ok st1
                with ⟨remA, stA, eA⟩
              rcases hc2 : flattenLoop ord2 n m "" (pfx ++ "." ++ m) rest ok st2
                with ⟨remB, stB, eB⟩
              have h1 := ih m "" (pfx ++ "." ++ m) rest ok st1 st2 hrec hsim
              rw [hc1, hc2] at h1
              obtain ⟨hrem, hrec1, herr, hsim1⟩ := h1
              simp only at hrem hrec1 herr hsim1
              subst hrem herr
              cases eA with
              | some msg =>
                  refine ⟨?_, ?_, ?_, ?_⟩ <;>
                    simp only [flattenLoop, hc1, hc2] <;>
                    first
                      | rfl
                      | exact hrec1
                      | exact hsim1
              | none =>
                  have h2 := ih m m pfx remA ok stA stB hrec1 hsim1
                  refine ⟨?_, ?_, ?_, ?_⟩ <;>
                    simp only [flattenLoop, hc1, hc2] <;>
                    first
                      | exact h2.1
                      | exact h2.2.1
                      | exact h2.2.2.1
                      | exact h2.2.2.2
          | charData s =>
              have hx : ({ st1 with record :=
                    (if trimSpace s ≠ "" then st1.record.appendVal pfx (trimSpace s)
                      else st1.record).ensureKey lt } : FlatState).record
                  = ({ st2 with record :=
                    (if trimSpace s ≠ "" then st2.record.appendVal pfx (trimSpace s)
                      else st2.record).ensureKey lt } : FlatState).record := by
                simp [hrec]
              have h2 := ih el lt pfx rest ok _ _ hx hsim
              refine ⟨?_, ?_, ?_, ?_⟩ <;>
                simp only [flattenLoop] <;>
                first
                  | exact h2.1
                  | exact h2.2.1
                  | exact h2.2.2.1
                  | exact h2.2.2.2
          | endE m =>
              by_cases hm : m = el
              · refine ⟨?_, ?_, ?_, ?_⟩ <;>
                  simp only [flattenLoop, if_pos hm] <;>
                  first
                    | rfl
                    | exact hrec
                    | exact hsim
              · have h2 := ih el lt pfx rest ok st1 st2 hrec hsim
                refine ⟨?_, ?_, ?_, ?_⟩ <;>
                  simp only [flattenLoop, if_neg hm] <;>
                  first
                    | exact h2.1
                    | exact h2.2.1
                    | exact h2.2.2.1
                    | exact h2.2.2.2
          | other =>
              have h2 := ih el lt pfx rest ok st1 st2 hrec hsim
              refine ⟨?_, ?_, ?_, ?_⟩ <;>
                simp only [flattenLoop] <;>
                first
                  | exact h2.1
                  | exact h2.2.1
                  | exact h2.2.2.1
                  | exact h2.2.2.2


/-! ## The record is only ever modified by character data -/

/-- If the consumed stream holds no character-data token, a `flatten` run
leaves the record exactly as it found it: neither starting nor closing an
element registers anything. -/
theorem flattenLoop_record_no_chardata (ord : Record → Record) :
    ∀ (fuel : Nat) (el lt pfx : String) (toks : List Tok) (ok : Bool)
      (st : FlatState),
    toks.all (fun t => ! isCharData t) = true →
    (flattenLoop ord fuel el lt pfx toks ok st).2.1.record = st.record := by
  intro fuel
  induction fuel with
  | zero => intro el lt pfx toks ok st h; simp [flattenLoop]
  | succ n ih =>
      intro el lt pfx toks ok st h
      cases toks with
      | nil => exact (flattenLoop_nil ord (n + 1) el lt pfx ok st).2
      | cons t rest =>
          have hrest : rest.all (fun t => ! isCharData t) = true := by
            simp only [List.all_cons, Bool.and_eq_true] at h
            exact h.2
          cases t with
          | startE m =>
              rcases hc : flattenLoop ord n m "" (pfx ++ "." ++ m) rest ok st
                with ⟨rem1, st1, e1⟩
              have h1 : st1.record = st.record := by
                have := ih m "" (pfx ++ "." ++ m) rest ok st hrest
                rw [hc] at this; exact this
              cases e1 with
              | some msg => simp only [flattenLoop, hc]; exact h1
              | none =>
                  obtain ⟨pre1, hpre1, -⟩ :=
                    flattenLoop_evolve ord n m "" (pfx ++ "." ++ m) rest ok st rem1 st1 none hc
                  have hrem1 : rem1.all (fun t => ! isCharData t) = true := by
                    rw [hpre1, List.all_append, Bool.and_eq_true] at hrest
                    exact hrest.2
                  simp only [flattenLoop, hc]
                  have h2 := ih m m pfx rem1 ok st1 hrem1
                  rw [h2, h1]
          | charData s =>
              simp only [List.all_cons, isCharData, Bool.and_eq_true] at h
              exact absurd h.1 (by simp)
          | endE m =>
              simp only [flattenLoop]
              by_cases hm : m = el
              · rw [if_pos hm]
              · rw [if_neg hm]
                exact ih el lt pfx rest ok st hrest
          | other =>
              simp only [flattenLoop]
              exact ih el lt pfx rest ok st hrest

/-! ## Shard-level lemmas about `generateRows` -/

/-- `generateRows` is the plain fold of per-document flattening over the
shard's files: no per-document outcome (parse error or sink failure) stops
the loop, and the function returns `nil` on every path. -/
theorem generateRows_eq_foldl (ord : Record → Record) :
    ∀ (files : List Doc) (st : FlatState),
    generateRows ord files st =
      (files.foldl (fun s d => (flattenDoc ord d s).1) st, none) := by
  intro files
  induction files with
  | nil => intro st; rfl
  | cons d rest ih => intro st; simp only [generateRows, List.foldl_cons, ih]

/-- Across the documents of one shard the record only grows: whatever value
slice a key holds before a document is processed is a prefix of the slice it
holds afterwards — the record is never discarded between documents. -/
theorem generateRows_record_persists (ord : Record → Record) :
    ∀ (files : List Doc) (st : FlatState) (p : String),
    List.IsPrefix (st.record.findD p)
      ((generateRows ord files st).1.record.findD p) := by
  intro files
  induction files with
  | nil => intro st p; exact List.prefix_refl _
  | cons d rest ih =>
      intro st p
      rcases hc : flattenLoop ord (d.toks.length + 1) "" "" "" d.toks d.ok st
        with ⟨rem1, st1, e1⟩
      obtain ⟨pre1, -, htail1⟩ :=
        flattenLoop_evolve ord (d.toks.length + 1) "" "" "" d.toks d.ok st rem1 st1 e1 hc
      obtain ⟨tail1, ht1, -⟩ := htail1 p
      have hstep : (flattenDoc ord d st).1 = st1 := by
        simp only [flattenDoc, hc]
      have h2 := ih st1 p
      simp only [generateRows, hstep]
      have hpre : List.IsPrefix (st.record.findD p) (st1.record.findD p) :=
        ⟨tail1, ht1.symm⟩
      exact hpre.trans h2

/-- Keys present in the record before a shard's documents are processed are
still present afterwards. -/
theorem generateRows_keys_mono (ord : Record → Record) :
    ∀ (files : List Doc) (st : FlatState) (p : String),
    (st.record.find p).isSome →
    ((generateRows ord files st).1.record.find p).isSome := by
  intro files
  induction files with
  | nil => intro st p h; exact h
  | cons d rest ih =>
      intro st p h
      rcases hc : flattenLoop ord (d.toks.length + 1) "" "" "" d.toks d.ok st
        with ⟨rem1, st1, e1⟩
      have h1 : (st1.record.find p).isSome := by
        have := flattenLoop_keys_mono ord (d.toks.length + 1) "" "" "" d.toks d.ok st p h
        rw [hc] at this; exact this
      have hstep : (flattenDoc ord d st).1 = st1 := by
        simp only [flattenDoc, hc]
      simp only [generateRows, hstep]
      exact ih st1 p h1

/-! ## Claim theorems -/

/-- C9 (confirmed): when a record path holds zero values its output cell is
the empty string; exactly one value gives that value verbatim; more than one
value gives the concatenation of all values in document order with no
separator inserted (`String.join`). -/
theorem claim9_cell_materialization :
    cellOf [] = "" ∧ (∀ v : String, cellOf [v] = v) ∧
    (∀ data : List String, 1 < data.length → cellOf data = String.join data) := by
  refine ⟨rfl, fun v => by simp [cellOf], fun data h => ?_⟩
  simp only [cellOf, gt_iff_lt, if_pos h]

/-- Witness for C9 at a concrete multi-value cell. -/
theorem claim9_cell_materialization_witness :
    1 < (["AB", "C"] : List String).length ∧
    cellOf ["AB", "C"] = String.join ["AB", "C"] :=
  ⟨by decide, claim9_cell_materialization.2.2 ["AB", "C"] (by decide)⟩

/-- C8 (confirmed): within one document's flatten run, the value slice under
any path only ever grows at its end — earlier values are never overwritten —
the appended tail is an order-preserving subsequence of the stream's
non-empty trimmed character-data values, and a non-empty trimmed
character-data token is appended under the current prefix and retained
through the rest of the run. -/
theorem claim8_repeated_paths_retained (ord : Record → Record) (fuel : Nat)
    (el lt pfx : String) (toks : List Tok) (ok : Bool) (st : FlatState) :
    (∀ p, ∃ tail,
        (flattenLoop ord fuel el lt pfx toks ok st).2.1.record.findD p
          = st.record.findD p ++ tail ∧ tail.Sublist (charVals toks)) ∧
    (∀ s rest, toks = Tok.charData s :: rest → trimSpace s ≠ "" →
      ∃ tail,
        (flattenLoop ord (fuel + 1) el lt pfx toks ok st).2.1.record.findD pfx
          = st.record.findD pfx ++ trimSpace s :: tail) := by
  constructor
  · intro p
    rcases hc : flattenLoop ord fuel el lt pfx toks ok st with ⟨rem, stR, e⟩
    obtain ⟨pre, hpre, htail⟩ :=
      flattenLoop_evolve ord fuel el lt pfx toks ok st rem stR e hc
    obtain ⟨tail, ht, hs⟩ := htail p
    refine ⟨tail, ht, hs.trans ?_⟩
    have hsub : pre.Sublist toks := by
      rw [hpre]; exact List.sublist_append_left pre rem
    simpa [charVals] using List.Sublist.filterMap _ hsub
  · intro s rest htoks hs
    subst htoks
    have hstep : flattenLoop ord (fuel + 1) el lt pfx (Tok.charData s :: rest) ok st
        = flattenLoop ord fuel el lt pfx rest ok
            { st with record := (st.record.appendVal pfx (trimSpace s)).ensureKey lt } := by
      simp [flattenLoop, hs]
    rw [hstep]
    rcases hc : flattenLoop ord fuel el lt pfx rest ok
        { st with record := (st.record.appendVal pfx (trimSpace s)).ensureKey lt }
      with ⟨rem, stR, e⟩
    obtain ⟨pre, -, htail⟩ :=
      flattenLoop_evolve ord fuel el lt pfx rest ok _ rem stR e hc
    obtain ⟨tail, ht, -⟩ := htail pfx
    rw [Record.findD_ensureKey, Record.findD_appendVal, if_pos rfl] at ht
    exact ⟨tail, by simp [ht, List.append_assoc]⟩

/-- Witness for C8: the documented value lands under its path and is kept. -/
theorem claim8_repeated_paths_retained_witness :
    ∃ tail,
      (flattenLoop ordId 3 "a" "" ".a"
          [Tok.charData "x", Tok.charData "y"] true st0).2.1.record.findD ".a"
        = st0.record.findD ".a" ++ trimSpace "x" :: tail :=
  (claim8_repeated_paths_retained ordId 2 "a" "" ".a"
      [Tok.charData "x", Tok.charData "y"] true st0).2 "x" [Tok.charData "y"]
    rfl (by decide)

/-- C10 (confirmed): every character-data token registers the bare
`lastTag` key (the most recently started child at the current level, the
empty string before any sibling start) in the record, and such keys — which
are not dot-joined paths — survive to the end of the run and contribute
cells to the emitted rows, as the spec's worked example shows concretely. -/
theorem claim10_lastTag_keys (ord : Record → Record) (fuel : Nat)
    (el lt pfx s : String) (rest : List Tok) (ok : Bool) (st : FlatState) :
    (((flattenLoop ord (fuel + 1) el lt pfx (Tok.charData s :: rest) ok
        st).2.1.record.find lt).isSome) ∧
    (flattenDoc ordId exDoc st0).1.record.find "" = some [] ∧
    (flattenDoc ordId exDoc st0).1.record.map Prod.fst
      = [".Return.EIN", "", ".Return.Filer.Name"] ∧
    (flattenDoc ordId exDoc st0).1.sink.rows
      = List.replicate 3 ["12-3456789", "", "ACME"] := by
  refine ⟨?_, by decide, by decide, by decide⟩
  by_cases hv : trimSpace s = ""
  · have hstep : flattenLoop ord (fuel + 1) el lt pfx (Tok.charData s :: rest) ok st
        = flattenLoop ord fuel el lt pfx rest ok
            { st with record := st.record.ensureKey lt } := by
      simp [flattenLoop, hv]
    rw [hstep]
    exact flattenLoop_keys_mono ord fuel el lt pfx rest ok _ lt
      (Record.isSome_find_ensureKey_self _ _)
  · have hstep : flattenLoop ord (fuel + 1) el lt pfx (Tok.charData s :: rest) ok st
        = flattenLoop ord fuel el lt pfx rest ok
            { st with record := (st.record.appendVal pfx (trimSpace s)).ensureKey lt } := by
      simp [flattenLoop, hv]
    rw [hstep]
    exact flattenLoop_keys_mono ord fuel el lt pfx rest ok _ lt
      (Record.isSome_find_ensureKey_self _ _)

/-- C4 fails on the code: flattening the worked example also registers the
empty-string key (with an empty slice), so the record has three keys, not
the two the spec lists. -/
theorem claim4_counterexample :
    (flattenDoc ordId exDoc st0).1.record.find "" = some [] ∧
    (flattenDoc ordId exDoc st0).1.record.length = 3 := by decide

/-- C4 amended: the worked example flattens to the record
`{".Return.EIN": ["12-3456789"], "": [], ".Return.Filer.Name": ["ACME"]}`;
no header reconciliation happens — three identical rows are emitted (one per
recursion level still open at end of document), each holding one cell per
record key in iteration order, not five header-aligned cells. -/
theorem claim4_amended_worked_example :
    (flattenDoc ordId exDoc st0).1.record
      = [(".Return.EIN", ["12-3456789"]), ("", []), (".Return.Filer.Name", ["ACME"])] ∧
    (flattenDoc ordId exDoc st0).1.sink.rows
      = List.replicate 3 ["12-3456789", "", "ACME"] ∧
    (flattenDoc ordId exDoc st0).2 = none := by decide

/-- C1 fails on the code: for the worked example, under the fixed header of
5 columns, all three emitted rows have 3 cells. -/
theorem claim1_counterexample :
    header.length = 5 ∧
    ((flattenDoc ordId exDoc st0).1.sink.rows.map List.length) = [3, 3, 3] ∧
    (3 : Nat) ≠ 5 := by decide

/-- C1 amended: every row a flatten run emits is built from the run's final
record under the map-iteration order, so it has exactly one cell per record
key (`len(row) = len(record)`), which is unrelated to the header width. -/
theorem claim1_amended_row_width (ord : Record → Record)
    (hord : ∀ r : Record, (ord r).Perm r) (fuel : Nat) (el lt pfx : String)
    (toks : List Tok) (ok : Bool) (st : FlatState) :
    ∃ k, (flattenLoop ord fuel el lt pfx toks ok st).2.1.sink.rows
        = st.sink.rows ++ List.replicate k
            (buildRow (ord (flattenLoop ord fuel el lt pfx toks ok st).2.1.record)) ∧
      (buildRow (ord (flattenLoop ord fuel el lt pfx toks ok st).2.1.record)).length
        = (flattenLoop ord fuel el lt pfx toks ok st).2.1.record.length := by
  rcases hc : flattenLoop ord fuel el lt pfx toks ok st with ⟨rem, stR, e⟩
  obtain ⟨k, hrows, -⟩ := flattenLoop_rows ord fuel el lt pfx toks ok st rem stR e hc
  refine ⟨k, hrows, ?_⟩
  calc (buildRow (ord stR.record)).length
      = (ord stR.record).length := by simp [buildRow]
    _ = stR.record.length := (hord stR.record).length_eq

/-- Witness for C1 amended at the worked example with insertion order. -/
theorem claim1_amended_row_width_witness :
    ∃ k, (flattenLoop ordId 11 "" "" "" exToks true st0).2.1.sink.rows
        = st0.sink.rows ++ List.replicate k
            (buildRow (ordId (flattenLoop ordId 11 "" "" "" exToks true st0).2.1.record)) ∧
      (buildRow (ordId (flattenLoop ordId 11 "" "" "" exToks true st0).2.1.record)).length
        = (flattenLoop ordId 11 "" "" "" exToks true st0).2.1.record.length :=
  claim1_amended_row_width ordId (fun r => List.Perm.refl r) 11 "" "" "" exToks true st0

/-- C2 fails on the code: within one shard the record is shared across
documents, so `docB`'s row `["x", "", "y"]` contains the value `"x"` that
only `docA` carries (`docB`'s stream holds only `"y"`). -/
theorem claim2_counterexample :
    (generateRows ordId [docA, docB] st0).1.sink.rows
      = [["x", ""], ["x", "", "y"]] ∧
    charVals docA.toks = ["x"] ∧ charVals docB.toks = ["y"] := by decide

/-- C2 amended: the record is created fresh once per shard worker, not per
document; across a shard's documents it is never discarded — every key and
every value slice present before a document is processed persists (as a
prefix of the later slice) through the remainder of the shard. -/
theorem claim2_amended_record_per_shard (ord : Record → Record)
    (files : List Doc) (st : FlatState) (p : String) :
    List.IsPrefix (st.record.findD p)
      ((generateRows ord files st).1.record.findD p) ∧
    ((st.record.find p).isSome →
      ((generateRows ord files st).1.record.find p).isSome) :=
  ⟨generateRows_record_persists ord files st p,
   generateRows_keys_mono ord files st p⟩

/-- Witness for C2 amended: a value recorded before `docB` survives it. -/
theorem claim2_amended_record_per_shard_witness :
    List.IsPrefix
      (({ record := [(".a", ["x"])], sink := sink0 } : FlatState).record.findD ".a")
      ((generateRows ordId [docB]
          { record := [(".a", ["x"])], sink := sink0 }).1.record.findD ".a") ∧
    ((generateRows ordId [docB]
        { record := [(".a", ["x"])], sink := sink0 }).1.record.find ".a").isSome :=
  ⟨(claim2_amended_record_per_shard ordId [docB]
      { record := [(".a", ["x"])], sink := sink0 } ".a").1,
   (claim2_amended_record_per_shard ordId [docB]
      { record := [(".a", ["x"])], sink := sink0 } ".a").2 (by decide)⟩

/-- C3 fails on the code: with a sink that fails from the first data-row
write on, `docA`'s write error is logged and skipped, `docB` is still fully
processed (its path is in the record), and `generateRows` returns no
error. -/
theorem claim3_counterexample :
    (generateRows ordId [docA, docB]
        { record := [], sink := { rows := [], attempts := 1, failFrom := some 1 } }).2
      = none ∧
    (generateRows ordId [docA, docB]
        { record := [], sink := { rows := [], attempts := 1, failFrom := some 1 } }).1.record.find ".b"
      = some ["y"] ∧
    (flattenDoc ordId docA
        { record := [], sink := { rows := [], attempts := 1, failFrom := some 1 } }).2
      = some "failed to write CSV row" := by decide

/-- C3 amended: a sink write/flush failure aborts only the current
document's flattening; the worker continues with the shard's remaining
documents and itself always returns `nil`; the failure reaches the
top-level return value only through the final flush check after all shards
have run. -/
theorem claim3_amended_sink_failure_handling (ord : Record → Record)
    (d : Doc) (files : List Doc) (st : FlatState)
    (shards : List (List Doc)) (ff : Option Nat) :
    generateRows ord (d :: files) st
      = generateRows ord files ((flattenDoc ord d st).1) ∧
    (generateRows ord files st).2 = none ∧
    ((parseXMLsModel ord shards ff).2 = none →
      (parseXMLsModel ord shards ff).1.flushOk = true) := by
  refine ⟨rfl, ?_, ?_⟩
  · rw [generateRows_eq_foldl]
  · intro h
    unfold parseXMLsModel at h ⊢
    rcases hw : (({ rows := [], attempts := 0, failFrom := ff } : Sink).writeRow header)
      with ⟨s1, okH⟩
    simp only [hw] at h ⊢
    cases okH with
    | false => simp at h
    | true =>
        by_cases hfl : s1.flushOk = true
        · simp only [hfl, if_true] at h ⊢
          unfold finalFlushCheck at h
          by_cases h2 : (shards.foldl
              (fun sk files =>
                (generateRows ord files { record := [], sink := sk }).1.sink) s1).flushOk = true
          · exact h2
          · rw [if_neg h2] at h
            simp at h
        · simp only [hfl, if_false] at h
          simp at h

/-- Witness for C3 amended: a healthy run ends with a clean final flush. -/
theorem claim3_amended_sink_failure_handling_witness :
    (parseXMLsModel ordId [[docA]] none).1.flushOk = true :=
  (claim3_amended_sink_failure_handling ordId docA [] st0 [[docA]] none).2.2
    (by decide)

/-- C5 fails on the code: after `docBad`'s mid-stream decode error is
skipped, its partially built record (holding `"x"`) is not discarded — the
sole row emitted for the well-formed `docB` is `["x", "", "y"]`, carrying
the aborted document's value. -/
theorem claim5_counterexample :
    (flattenDoc ordId docBad st0).2 = some "XML parsing error" ∧
    (flattenDoc ordId docBad st0).1.sink.rows = [] ∧
    (generateRows ordId [docBad, docB] st0).1.sink.rows = [["x", "", "y"]] ∧
    charVals docB.toks = ["y"] := by decide

/-- C5 amended: on a mid-stream decoder error no row is emitted for the
document (the sink is untouched) and the shard's remaining documents are
still processed, but the partially built record persists — every slice it
holds survives into the subsequent documents of the shard. -/
theorem claim5_amended_decode_error (ord : Record → Record) (fuel : Nat)
    (el lt pfx : String) (toks : List Tok) (st : FlatState) (d : Doc)
    (files : List Doc) :
    (flattenLoop ord fuel el lt pfx toks false st).2.1.sink = st.sink ∧
    (∀ p, List.IsPrefix (st.record.findD p)
        ((flattenLoop ord fuel el lt pfx toks false st).2.1.record.findD p)) ∧
    generateRows ord (d :: files) st
      = generateRows ord files ((flattenDoc ord d st).1) := by
  refine ⟨flattenLoop_sink_of_err ord fuel el lt pfx toks st, ?_, rfl⟩
  intro p
  rcases hc : flattenLoop ord fuel el lt pfx toks false st with ⟨rem, stR, e⟩
  obtain ⟨pre, -, htail⟩ :=
    flattenLoop_evolve ord fuel el lt pfx toks false st rem stR e hc
  obtain ⟨tail, ht, -⟩ := htail p
  exact ⟨tail, ht.symm⟩

/-- C6 fails on the code: in `<Return><EIN></EIN></Return>` the element
`EIN` closes with no text, yet no path `.Return.EIN` (indeed no key at all)
is registered. -/
theorem claim6_counterexample :
    (flattenDoc ordId docNoText st0).1.record.find ".Return.EIN" = none ∧
    (flattenDoc ordId docNoText st0).1.record = [] := by decide

/-- C6 amended: closing an element registers nothing; the record is
modified only at character-data tokens, so a run over a stream with no
character data leaves the record exactly unchanged — an element that closes
with no text at its path gets no key for that path. -/
theorem claim6_amended_no_registration_on_close (ord : Record → Record)
    (fuel : Nat) (el lt pfx : String) (toks : List Tok) (ok : Bool)
    (st : FlatState)
    (h : toks.all (fun t => ! isCharData t) = true) :
    (flattenLoop ord fuel el lt pfx toks ok st).2.1.record = st.record :=
  flattenLoop_record_no_chardata ord fuel el lt pfx toks ok st h

/-- Witness for C6 amended on the text-free document. -/
theorem claim6_amended_no_registration_on_close_witness :
    (flattenLoop ordId 5 "" "" "" docNoText.toks true st0).2.1.record
      = st0.record :=
  claim6_amended_no_registration_on_close ordId 5 "" "" "" docNoText.toks
    true st0 (by decide)

/-- C7 fails on the code: the cells of a row follow the map iteration
order, which Go randomizes — two legal iteration orders of the same record
(insertion order and its reverse, a permutation of it) emit rows with
different cell sequences for the same input document. -/
theorem claim7_counterexample :
    (flattenDoc ordId docA st0).1.sink.rows = [["x", ""]] ∧
    (flattenDoc ordRev docA st0).1.sink.rows = [["", "x"]] ∧
    (ordRev (flattenDoc ordId docA st0).1.record).Perm
      ((flattenDoc ordId docA st0).1.record) ∧
    ([["x", ""]] : List (List String)) ≠ [["", "x"]] := by decide

/-- C7 amended: re-running on the same input yields the same record, the
same error, and equally many emitted rows whose cells form the same
multiset; only the order of cells within a row may differ between runs
(with the map iteration order). -/
theorem claim7_amended_multiset_determinism (ord1 ord2 : Record → Record)
    (h1 : ∀ r : Record, (ord1 r).Perm r) (h2 : ∀ r : Record, (ord2 r).Perm r)
    (fuel : Nat) (el lt pfx : String) (toks : List Tok) (ok : Bool)
    (st : FlatState) :
    (flattenLoop ord1 fuel el lt pfx toks ok st).2.1.record
      = (flattenLoop ord2 fuel el lt pfx toks ok st).2.1.record ∧
    (flattenLoop ord1 fuel el lt pfx toks ok st).2.2
      = (flattenLoop ord2 fuel el lt pfx toks ok st).2.2 ∧
    ∃ k r1 r2,
      (flattenLoop ord1 fuel el lt pfx toks ok st).2.1.sink.rows
        = st.sink.rows ++ List.replicate k r1 ∧
      (flattenLoop ord2 fuel el lt pfx toks ok st).2.1.sink.rows
        = st.sink.rows ++ List.replicate k r2 ∧
      r1.Perm r2 := by
  have hsim := flattenLoop_oracle_sim ord1 ord2 fuel el lt pfx toks ok st st
    rfl (SinkSim.refl st.sink)
  obtain ⟨-, hrec, herr, hsinks⟩ := hsim
  refine ⟨hrec, herr, ?_⟩
  rcases hc1 : flattenLoop ord1 fuel el lt pfx toks ok st with ⟨remA, stA, eA⟩
  rcases hc2 : flattenLoop ord2 fuel el lt pfx toks ok st with ⟨remB, stB, eB⟩
  obtain ⟨k1, hrows1, -⟩ := flattenLoop_rows ord1 fuel el lt pfx toks ok st remA stA eA hc1
  obtain ⟨k2, hrows2, -⟩ := flattenLoop_rows ord2 fuel el lt pfx toks ok st remB stB eB hc2
  rw [hc1, hc2] at hrec hsinks
  simp only at hrec hsinks
  have hlen : stA.sink.rows.length = stB.sink.rows.length := hsinks.2.2
  rw [hrows1, hrows2] at hlen
  simp only [List.length_append, List.length_replicate] at hlen
  have hk : k1 = k2 := by omega
  refine ⟨k1, buildRow (ord1 stA.record), buildRow (ord2 stB.record),
    hrows1, by rw [hk]; exact hrows2, ?_⟩
  rw [hrec]
  exact ((h1 stB.record).trans (h2 stB.record).symm).map fun e => cellOf e.2

/-- Witness for C7 amended, comparing insertion order with its reverse on
the single-element document. -/
theorem claim7_amended_multiset_determinism_witness :
    (flattenLoop ordId 4 "" "" "" docA.toks true st0).2.1.record
      = (flattenLoop ordRev 4 "" "" "" docA.toks true st0).2.1.record ∧
    (flattenLoop ordId 4 "" "" "" docA.toks true st0).2.2
      = (flattenLoop ordRev 4 "" "" "" docA.toks true st0).2.2 ∧
    ∃ k r1 r2,
      (flattenLoop ordId 4 "" "" "" docA.toks true st0).2.1.sink.rows
        = st0.sink.rows ++ List.replicate k r1 ∧
      (flattenLoop ordRev 4 "" "" "" docA.toks true st0).2.1.sink.rows
        = st0.sink.rows ++ List.replicate k r2 ∧
      r1.Perm r2 :=
  claim7_amended_multiset_determinism ordId ordRev
    (fun r => List.Perm.refl r) (fun r => List.reverse_perm r)
    4 "" "" "" docA.toks true st0
